import Mathlib

/-!
# WebSocket session (`ws/session.hpp`): handshake, accept key, frame write

A shallow embedding of `ws::session` and the properties of its handshake
negotiation, accept-key derivation and send path.

Conventions of the embedding.

* A `std::string` (and the readable content of a `boost::asio::streambuf`) is a
  sequence of 8-bit `char`s. It is modelled as `List Char`; the element with
  code `n < 256` stands for the byte `n`. Source literals are ASCII and are
  written `"...".toList`.
* The two OpenSSL services used by `generate_accept` are modelled by their
  standards: `SHA1` by FIPS 180-4, the base64 `BIO` filter by RFC 4648 together
  with OpenSSL's 64-character line discipline that `BIO_FLAGS_BASE64_NO_NL`
  switches off.
* `std::regex("(.*): (.*)")` is the ECMAScript grammar: `.` matches every
  character except the line terminators LF and CR, `*` is greedy, and
  `std::sregex_iterator` performs a leftmost `regex_search`.
* Asynchronous operations are modelled by their start (an entry in the list of
  outstanding operations and in the trace) and by their completion handler (a
  function of the error code applied to the session state).
-/

namespace ws

/-- A `std::string`: a sequence of 8-bit characters. -/
abbrev Str := List Char

/-! ## SHA-1 (FIPS 180-4), the model of OpenSSL `SHA1` -/

/-- The value of a `char` read as `unsigned char`. -/
def byteOf (c : Char) : Nat := c.toNat % 256

/-- Rotate a 32-bit word left by `n` bits (`0 < n < 32`). -/
def rotl32 (x n : Nat) : Nat :=
  ((x <<< n) ||| (x >>> (32 - n))) % 2 ^ 32

/-- Big-endian bytes of a 32-bit word. -/
def be32 (x : Nat) : List Nat :=
  [(x >>> 24) % 256, (x >>> 16) % 256, (x >>> 8) % 256, x % 256]

/-- Big-endian bytes of a 64-bit word. -/
def be64 (x : Nat) : List Nat :=
  be32 ((x >>> 32) % 2 ^ 32) ++ be32 (x % 2 ^ 32)

/-- Message padding: the bit `1`, zero bits up to 56 mod 64 bytes, then the
message length in bits as a 64-bit big-endian integer. -/
def sha1Pad (msg : List Nat) : List Nat :=
  msg ++ [0x80] ++ List.replicate ((119 - msg.length % 64) % 64) 0
    ++ be64 ((8 * msg.length) % 2 ^ 64)

/-- Read big-endian 32-bit words off a byte sequence. -/
def wordsOf : List Nat → List Nat
  | a :: b :: c :: d :: rest =>
      (((a * 256 + b) * 256 + c) * 256 + d) :: wordsOf rest
  | _ => []

/-- Extend the message schedule by `n` words. The schedule is kept newest
first, so that `W[t-3], W[t-8], W[t-14], W[t-16]` are at positions 2, 7, 13, 15. -/
def sha1Extend : Nat → List Nat → List Nat
  | 0, w => w
  | n + 1, w =>
      let x := (w.getD 2 0 ^^^ w.getD 7 0) ^^^ (w.getD 13 0 ^^^ w.getD 15 0)
      sha1Extend n (rotl32 x 1 :: w)

/-- The message schedule `W[0..79]` of one 16-word block, oldest first. -/
def sha1Schedule (block : List Nat) : List Nat :=
  (sha1Extend 64 block.reverse).reverse

/-- Working variables `a, b, c, d, e`. -/
structure Sha1State where
  a : Nat
  b : Nat
  c : Nat
  d : Nat
  e : Nat
  deriving DecidableEq, Repr

/-- The round function `f_t` and the constant `K_t`. -/
def sha1FK (t b c d : Nat) : Nat × Nat :=
  if t < 20 then ((b &&& c) ||| ((b ^^^ (2 ^ 32 - 1)) &&& d), 0x5A827999)
  else if t < 40 then (b ^^^ c ^^^ d, 0x6ED9EBA1)
  else if t < 60 then ((b &&& c) ||| (b &&& d) ||| (c &&& d), 0x8F1BBCDC)
  else (b ^^^ c ^^^ d, 0xCA62C1D6)

/-- One of the 80 rounds. -/
def sha1Round (s : Sha1State) (t w : Nat) : Sha1State :=
  let fk := sha1FK t s.b s.c s.d
  { a := (rotl32 s.a 5 + fk.1 + s.e + fk.2 + w) % 2 ^ 32
    b := s.a
    c := rotl32 s.b 30
    d := s.c
    e := s.d }

/-- Run the rounds over the schedule, `t` counting from the given start. -/
def sha1Rounds : Sha1State → Nat → List Nat → Sha1State
  | s, _, [] => s
  | s, t, w :: ws => sha1Rounds (sha1Round s t w) (t + 1) ws

/-- Process one 64-byte block into the chaining value. -/
def sha1Block (h : Sha1State) (block : List Nat) : Sha1State :=
  let r := sha1Rounds h 0 (sha1Schedule block)
  { a := (h.a + r.a) % 2 ^ 32
    b := (h.b + r.b) % 2 ^ 32
    c := (h.c + r.c) % 2 ^ 32
    d := (h.d + r.d) % 2 ^ 32
    e := (h.e + r.e) % 2 ^ 32 }

/-- Fold the compression function over the 16-word blocks of the padded
message; the first argument bounds the number of blocks. -/
def sha1Blocks : Nat → Sha1State → List Nat → Sha1State
  | 0, h, _ => h
  | n + 1, h, ws =>
      match ws with
      | [] => h
      | _ => sha1Blocks n (sha1Block h (ws.take 16)) (ws.drop 16)

/-- The initial hash value. -/
def sha1Init : Sha1State :=
  { a := 0x67452301, b := 0xEFCDAB89, c := 0x98BADCFE, d := 0x10325476, e := 0xC3D2E1F0 }

/-- The call `SHA1(data, len, out)`: the 20-byte digest of a byte sequence. -/
def SHA1 (msg : List Nat) : List Nat :=
  let ws := wordsOf (sha1Pad msg)
  let h := sha1Blocks (ws.length / 16 + 1) sha1Init ws
  be32 h.a ++ be32 h.b ++ be32 h.c ++ be32 h.d ++ be32 h.e

/-! ## Base64 (RFC 4648), the model of the `BIO_f_base64` filter -/

/-- The base64 alphabet. -/
def b64Alphabet : Str :=
  "ABCDEFGHIJKLMNOPQRSTUVWXYZabcdefghijklmnopqrstuvwxyz0123456789+/".toList

/-- The character of a 6-bit value. -/
def b64Char (n : Nat) : Char := b64Alphabet.getD (n % 64) 'A'

/-- Base64 with `=` padding and no line breaks. -/
def base64 : List Nat → Str
  | a :: b :: c :: rest =>
      b64Char (a / 4) :: b64Char ((a % 4) * 16 + b / 16)
        :: b64Char ((b % 16) * 4 + c / 64) :: b64Char (c % 64) :: base64 rest
  | [a, b] =>
      [b64Char (a / 4), b64Char ((a % 4) * 16 + b / 16), b64Char ((b % 16) * 4), '=']
  | [a] => [b64Char (a / 4), b64Char ((a % 4) * 16), '=', '=']
  | [] => []

/-- Break encoded text into lines of at most 64 characters, each ended by a
newline: what the filter emits when `BIO_FLAGS_BASE64_NO_NL` is not set. The
first argument bounds the number of lines. -/
def b64Lines : Nat → Str → Str
  | 0, _ => []
  | n + 1, s =>
      match s with
      | [] => []
      | _ => s.take 64 ++ '\n' :: b64Lines n (s.drop 64)

/-- What reaches the memory `BIO` behind a base64 filter after `BIO_write` of
the data and `BIO_flush`. -/
def BIO_base64 (no_nl : Bool) (data : List Nat) : Str :=
  if no_nl then base64 data
  else b64Lines (data.length + 1) (base64 data)

/-! ## `session::generate_accept` -/

/-- The protocol GUID of `generate_accept`. -/
def GUID : Str := "258EAFA5-E914-47DA-95CA-C5AB0DC85B11".toList

/-- The member `session::generate_accept(std::string &key)`; the result is the
new content of `key`. -/
def generate_accept (key : Str) : Str :=
  let key := key ++ GUID
  let hash := SHA1 (key.map byteOf)
  BIO_base64 true hash

/-! ## The header map `headers_` -/

/-- The content of `std::unordered_map<std::string, std::string>`: one entry
per key. -/
abbrev HeaderMap := List (Str × Str)

/-- The call `headers_.find(name)`: the mapped value, or `none` for
`headers_.end()`. -/
def headers_find : HeaderMap → Str → Option Str
  | [], _ => none
  | (k, v) :: m, name => if k = name then some v else headers_find m name

/-- The assignment `headers_[name] = value`: insert, or overwrite the entry of
`name`. -/
def headers_assign (m : HeaderMap) (name value : Str) : HeaderMap :=
  (name, value) :: m.filter (fun e => e.1 != name)

/-! ## `std::regex expr("(.*): (.*)")` -/

/-- The ECMAScript atom `.`: any character but the line terminators. -/
def dot (c : Char) : Bool := c != '\n' && c != '\r'

/-- A match of `(.*): (.*)` that begins at the head of the text, found the way
the backtracking matcher finds it: the first star takes one more character
whenever the rest of the pattern can still match behind it, and only otherwise
stops in front of `": "`; the second star takes every character up to the next
line terminator. The result is the pair of sub-matches `str(1)`, `str(2)`. -/
def regex_match_here : Str → Option (Str × Str)
  | [] => none
  | c :: cs =>
      if dot c then
        match regex_match_here cs with
        | some (g1, g2) => some (c :: g1, g2)
        | none =>
            if c = ':' then
              match cs with
              | ' ' :: v => some ([], v.takeWhile dot)
              | _ => none
            else none
      else none

/-- The iterator `std::sregex_iterator(header.begin(), header.end(), expr)`:
the leftmost match, or `none` for the end iterator. -/
def regex_search : Str → Option (Str × Str)
  | [] => none
  | c :: cs =>
      match regex_match_here (c :: cs) with
      | some r => some r
      | none => regex_search cs

/-! ## The parse loop of `process_handshake` -/

/-- The call `std::getline(request, header)`: `none` when the stream has no
character left; otherwise the text before the next LF (or all of it when there
is none) and what remains in the buffer, the LF itself extracted and dropped. -/
def getline (buf : Str) : Option (Str × Str) :=
  match buf with
  | [] => none
  | _ => some (buf.takeWhile (fun c => c != '\n'), (buf.dropWhile (fun c => c != '\n')).drop 1)

/-- The body of the loop: a line that matches is stored under `str(1)`. -/
def store_header (header : Str) (headers : HeaderMap) : HeaderMap :=
  match regex_search header with
  | some (name, value) => headers_assign headers name value
  | none => headers

/-- The loop `while (std::getline(request, header) && header != "\r")` with a
bound on the number of iterations; `none` when the bound is reached. The
result is the header map and the unread rest of the buffer. -/
def parse_loop : Nat → Str → HeaderMap → Option (HeaderMap × Str)
  | 0, _, _ => none
  | n + 1, buf, headers =>
      match getline buf with
      | none => some (headers, buf)
      | some (header, rest) =>
          if header = "\r".toList then some (headers, rest)
          else parse_loop n rest (store_header header headers)

/-- The parse loop. Every iteration extracts at least one character, so
`buf.length + 1` iterations always suffice (`parse_loop_isSome`). -/
def parse_headers (buf : Str) (headers : HeaderMap) : HeaderMap × Str :=
  (parse_loop (buf.length + 1) buf headers).getD (headers, buf)

/-! ## The session -/

/-- Modelled from the spec: `message::opcode`, declared in `message.hpp`; the
opcode of a frame (continuation, text, binary, close, ping, pong) as its
number. -/
abbrev opcode := Nat

/-- The asynchronous operations the session starts on its socket. -/
inductive Op
  /-- The `async_read_until(socket_, in_buffer_, "\r\n\r\n")` of `read_handshake`. -/
  | read_until
  /-- The `async_write(socket_, out_buffer_)` of `write_handshake(error)`. -/
  | write_out (error : Bool)
  /-- The `async_read(socket_, in_buffer_, transfer_exactly(2))` of `read`. -/
  | read_two
  /-- The `async_write(socket_, out_buffer_, transfer_exactly(0))` of `write`. -/
  | write_none (payload : Str)
  /-- The `async_write(socket_, buffer(buffer))` of `write`. -/
  | write_payload (payload : Str)
  deriving DecidableEq, Repr

/-- What the session does that is visible from outside its buffers: calls of
the application hooks and starts of asynchronous operations. -/
inductive Event
  | on_open
  | on_msg
  | on_close
  | started (op : Op)
  deriving DecidableEq, Repr

/-- How a member function or completion handler ends: it returns, or an
exception leaves it. -/
inductive Outcome
  | returned
  | thrown (value : Int)
  deriving DecidableEq, Repr

/-- The state of a `ws::session`, with the bytes written to the socket so far,
the outstanding operations and the trace of events. -/
structure session where
  headers_ : HeaderMap
  in_buffer_ : Str
  out_buffer_ : Str
  wire : Str
  pending : List Op
  trace : List Event
  deriving DecidableEq, Repr

/-- The state after the constructor `session(tcp::socket socket)`. -/
def session_new : session :=
  { headers_ := [], in_buffer_ := [], out_buffer_ := [], wire := [], pending := [], trace := [] }

/-- Start an asynchronous operation. -/
def start_op (op : Op) (s : session) : session :=
  { s with pending := s.pending ++ [op], trace := s.trace ++ [Event.started op] }

/-- Call an application hook. -/
def call_hook (e : Event) (s : session) : session :=
  { s with trace := s.trace ++ [e] }

/-- The member `session::read()`. -/
def read (s : session) : session := start_op Op.read_two s

/-- The completion handler of `read`: the received bytes are in `in_buffer_`
and the handler body is empty. -/
def read_done (_ec : Bool) (data : Str) (s : session) : session :=
  { s with in_buffer_ := s.in_buffer_ ++ data }

/-- The member `session::write(opcode, buffer)`: the payload length is computed,
no header is prepared, and a write of exactly zero bytes of `out_buffer_` is
started. -/
def write (_opcode : opcode) (buffer : Str) (s : session) : session :=
  start_op (Op.write_none buffer) s

/-- The completion handler of the first `async_write` of `write`. -/
def write_done (buffer : Str) (ec : Bool) (s : session) : session :=
  if !ec then start_op (Op.write_payload buffer) s else s

/-- The completion handler of the second `async_write` of `write`. On success
the whole buffer has been transferred, on failure its first `n` bytes. -/
def write_payload_done (buffer : Str) (ec : Bool) (n : Nat) (s : session) : session :=
  let s := { s with wire := s.wire ++ (if ec then buffer.take n else buffer) }
  if !ec then read s else s

/-- The member `session::close()`: the body is empty. -/
def close (s : session) : session := s

/-- The member `session::write_handshake(error)`. -/
def write_handshake (error : Bool) (s : session) : session :=
  start_op (Op.write_out error) s

/-- The completion handler of `write_handshake(error)`. On success the whole
of `out_buffer_` has been transferred, on failure its first `n` bytes. -/
def write_handshake_done (error : Bool) (ec : Bool) (n : Nat) (s : session) : session :=
  let k := if ec then min n s.out_buffer_.length else s.out_buffer_.length
  let s := { s with wire := s.wire ++ s.out_buffer_.take k, out_buffer_ := s.out_buffer_.drop k }
  if !ec then
    if !error then read (call_hook Event.on_open s) else s
  else s

/-- The member `session::process_handshake()`. -/
def process_handshake (s : session) : Outcome × session :=
  let parsed := parse_headers s.in_buffer_ s.headers_
  let s := { s with headers_ := parsed.1, in_buffer_ := parsed.2 }
  match headers_find s.headers_ "Sec-WebSocket-Key".toList with
  | none => (Outcome.thrown 400, s)
  | some key =>
      let key := generate_accept key
      let response := "HTTP/1.1 101 Switching Protocols\r\n".toList
        ++ "Upgrade: websocket\r\n".toList
        ++ "Connection: Upgrade\r\n".toList
        ++ "Sec-WebSocket-Accept: ".toList ++ key ++ "\r\n".toList
        ++ "\r\n".toList
      let s := { s with out_buffer_ := s.out_buffer_ ++ response }
      (Outcome.returned, write_handshake false s)

/-- The member `session::read_handshake()`. -/
def read_handshake (s : session) : session := start_op Op.read_until s

/-- The completion handler of `read_handshake`; `data` is what the operation
has put into `in_buffer_`. -/
def read_handshake_done (ec : Bool) (data : Str) (s : session) : Outcome × session :=
  let s := { s with in_buffer_ := s.in_buffer_ ++ data }
  if !ec then process_handshake s else (Outcome.returned, s)

/-- The member `session::start()`. -/
def start (s : session) : session := read_handshake s

/-! ## Runs of a session -/

/-- What happens to a session: an outstanding operation completes with an
error code (`true`: failed), the bytes a read has received and the number of
bytes a failed write has transferred; or the application calls `write` or
`close`. -/
inductive Input
  | complete (op : Op) (ec : Bool) (data : Str) (n : Nat)
  | call_write (code : opcode) (buffer : Str)
  | call_close
  deriving DecidableEq, Repr

/-- Run the completion handler of an operation. -/
def handler (op : Op) (ec : Bool) (data : Str) (n : Nat) (s : session) : Outcome × session :=
  match op with
  | Op.read_until => read_handshake_done ec data s
  | Op.write_out error => (Outcome.returned, write_handshake_done error ec n s)
  | Op.read_two => (Outcome.returned, read_done ec data s)
  | Op.write_none buffer => (Outcome.returned, write_done buffer ec s)
  | Op.write_payload buffer => (Outcome.returned, write_payload_done buffer ec n s)

/-- One step of a run. The completion of an operation that is not outstanding
does not happen. -/
def step (s : session) : Input → Outcome × session
  | Input.complete op ec data n =>
      if op ∈ s.pending then handler op ec data n { s with pending := s.pending.erase op }
      else (Outcome.returned, s)
  | Input.call_write code buffer => (Outcome.returned, write code buffer s)
  | Input.call_close => (Outcome.returned, close s)

/-- A run: the steps in order, up to the first exception, which leaves the
handler and ends the run. -/
def run : session → List Input → Outcome × session
  | s, [] => (Outcome.returned, s)
  | s, i :: rest =>
      match step s i with
      | (Outcome.returned, s1) => run s1 rest
      | (Outcome.thrown v, s1) => (Outcome.thrown v, s1)

/-! ## The vocabulary of the specification -/

/-- A header line `name: value` with its CRLF line end. -/
def header_line (e : Str × Str) : Str :=
  e.1 ++ ": ".toList ++ e.2 ++ "\r\n".toList

/-- A header block: header lines followed by the blank line. -/
def header_block (hs : List (Str × Str)) : Str :=
  (hs.map header_line).flatten ++ "\r\n".toList

/-- A header whose name has no colon, CR or LF and whose value has no `": "`,
CR or LF. -/
def well_formed_header (e : Str × Str) : Prop :=
  (':' ∉ e.1 ∧ '\r' ∉ e.1 ∧ '\n' ∉ e.1) ∧
    (¬ (": ".toList <:+: e.2) ∧ '\r' ∉ e.2 ∧ '\n' ∉ e.2)

/-- The value of the last header of the given name in a list of headers, `none`
when the name does not occur. -/
def last_value : List (Str × Str) → Str → Option Str
  | [], _ => none
  | e :: hs, name =>
      match last_value hs name with
      | some v => some v
      | none => if e.1 = name then some e.2 else none

/-- What follows the first occurrence of the delimiter `"\r\n\r\n"`, `none` when
the text does not contain it. -/
def after_delimiter : Str → Option Str
  | [] => none
  | c :: cs =>
      if "\r\n\r\n".toList.isPrefixOf (c :: cs) then some ((c :: cs).drop 4)
      else after_delimiter cs

/-- Lines, each with a CRLF line end. -/
def crlf_lines (ls : List Str) : Str :=
  (ls.map (fun l => l ++ "\r\n".toList)).flatten

/-- The text of a line before its first colon. -/
def before_first_colon (line : Str) : Str :=
  line.takeWhile (fun c => c != ':')

/-- The text of a line after its first colon. -/
def after_first_colon (line : Str) : Str :=
  (line.dropWhile (fun c => c != ':')).drop 1

/-- White space. -/
def is_space (c : Char) : Bool :=
  c == ' ' || c == '\t' || c == '\r' || c == '\n'

/-- A text without the white space around it. -/
def trim (s : Str) : Str :=
  ((s.dropWhile is_space).reverse.dropWhile is_space).reverse

/-- The frame the specification describes for an opcode and a payload: FIN set,
reserved bits clear, the opcode; mask bit clear and the length in its class;
the payload as it is. -/
def frame_spec (code : opcode) (payload : Str) : Str :=
  let n := payload.length
  let length_field : List Nat :=
    if n ≤ 125 then [n]
    else if n ≤ 65535 then [126, (n >>> 8) % 256, n % 256]
    else 127 :: be64 (n % 2 ^ 64)
  Char.ofNat (0x80 + code % 16) :: length_field.map Char.ofNat ++ payload

/-! ## Lemmas: `getline` and the parse loop -/

theorem getline_rest_length (buf line rest : Str) (h : getline buf = some (line, rest)) :
    rest.length < buf.length := by
  cases buf with
  | nil => simp [getline] at h
  | cons c cs =>
      simp only [getline, Option.some.injEq, Prod.mk.injEq] at h
      rw [← h.2]
      have h1 : ((c :: cs).dropWhile (fun c => c != '\n')).length ≤ (c :: cs).length :=
        (List.dropWhile_sublist _).length_le
      rcases hd : (c :: cs).dropWhile (fun c => c != '\n') with _ | ⟨d, ds⟩
      · simp
      · rw [hd] at h1
        simp only [List.drop_succ_cons, List.drop_zero, List.length_cons] at h1 ⊢
        omega

theorem parse_loop_fuel (n : Nat) : ∀ (m : Nat) (buf : Str) (headers : HeaderMap),
    buf.length < n → buf.length < m → parse_loop n buf headers = parse_loop m buf headers := by
  induction n with
  | zero => intro m buf headers h; omega
  | succ n ih =>
      intro m buf headers hn hm
      cases m with
      | zero => omega
      | succ m =>
          simp only [parse_loop]
          rcases hg : getline buf with _ | ⟨line, rest⟩
          · rfl
          · have hl := getline_rest_length buf line rest hg
            simp only
            split
            · rfl
            · exact ih m rest _ (by omega) (by omega)

theorem parse_loop_isSome (n : Nat) : ∀ (buf : Str) (headers : HeaderMap),
    buf.length < n → ∃ r, parse_loop n buf headers = some r := by
  induction n with
  | zero => intro buf headers h; omega
  | succ n ih =>
      intro buf headers hn
      simp only [parse_loop]
      rcases hg : getline buf with _ | ⟨line, rest⟩
      · exact ⟨_, rfl⟩
      · have hl := getline_rest_length buf line rest hg
        simp only
        split
        · exact ⟨_, rfl⟩
        · exact ih rest _ (by omega)

theorem parse_headers_of_loop (n : Nat) (buf : Str) (headers : HeaderMap)
    (hn : buf.length < n) :
    parse_loop n buf headers = some (parse_headers buf headers) := by
  obtain ⟨r, hr⟩ := parse_loop_isSome (buf.length + 1) buf headers (by omega)
  rw [parse_loop_fuel n (buf.length + 1) buf headers hn (by omega)]
  simp [parse_headers, hr]

/-- The loop of `process_handshake`, one iteration unfolded. -/
theorem parse_headers_unfold (buf : Str) (headers : HeaderMap) :
    parse_headers buf headers =
      match getline buf with
      | none => (headers, buf)
      | some (header, rest) =>
          if header = "\r".toList then (headers, rest)
          else parse_headers rest (store_header header headers) := by
  have h := parse_headers_of_loop (buf.length + 1) buf headers (by omega)
  rcases hg : getline buf with _ | ⟨line, rest⟩
  · simp only [parse_loop, hg, Option.some.injEq] at h
    exact h.symm
  · have hl := getline_rest_length buf line rest hg
    simp only [parse_loop, hg] at h
    by_cases hc : line = "\r".toList
    · simp only [hc, if_true, Option.some.injEq] at h ⊢
      exact h.symm
    · simp only [hc, if_false] at h ⊢
      rw [parse_headers_of_loop buf.length rest _ hl] at h
      exact (Option.some.inj h).symm

theorem getline_line (l rest : Str) (hl : '\n' ∉ l) :
    getline (l ++ '\n' :: rest) = some (l, rest) := by
  have h1 : ∀ (l : Str), '\n' ∉ l →
      (l ++ '\n' :: rest).takeWhile (fun c => c != '\n') = l ∧
      (l ++ '\n' :: rest).dropWhile (fun c => c != '\n') = '\n' :: rest := by
    intro l
    induction l with
    | nil => intro _; simp
    | cons c cs ih =>
        intro h
        simp only [List.mem_cons, not_or] at h
        have hc : (c != '\n') = true := by
          simp only [bne_iff_ne, ne_eq]
          exact fun e => h.1 e.symm
        obtain ⟨i1, i2⟩ := ih h.2
        simp [List.takeWhile_cons, List.dropWhile_cons, hc, i1, i2]
  obtain ⟨t, d⟩ := h1 l hl
  cases l with
  | nil => simp [getline]
  | cons c cs =>
      simp only [List.cons_append] at t d ⊢
      simp only [getline, t, d]
      simp

theorem parse_headers_blank (post : Str) (headers : HeaderMap) :
    parse_headers ("\r\n".toList ++ post) headers = (headers, post) := by
  have hg : getline ("\r\n".toList ++ post) = some ("\r".toList, post) := by
    have := getline_line "\r".toList post (by decide)
    simpa using this
  rw [parse_headers_unfold, hg]
  simp

theorem getline_cons_of_ne (c : Char) (cs : Str) (hc : c ≠ '\n') (hcs : cs ≠ []) :
    ∃ line, getline cs = some (line, ((c :: cs).dropWhile (fun c => c != '\n')).drop 1) := by
  have hb : (c != '\n') = true := by simpa using hc
  cases cs with
  | nil => exact absurd rfl hcs
  | cons d ds =>
      refine ⟨(d :: ds).takeWhile (fun c => c != '\n'), ?_⟩
      have e : (c :: d :: ds).dropWhile (fun c => c != '\n')
          = (d :: ds).dropWhile (fun c => c != '\n') := by
        rw [List.dropWhile_cons, if_pos hb]
      rw [e]
      rfl

theorem getline_rest_suffix (buf line rest : Str) (h : getline buf = some (line, rest)) :
    rest <:+ buf := by
  cases buf with
  | nil => simp [getline] at h
  | cons c cs =>
      simp only [getline, Option.some.injEq, Prod.mk.injEq] at h
      rw [← h.2]
      exact (List.drop_suffix 1 _).trans (List.dropWhile_suffix _)

theorem parse_headers_suffix (n : Nat) : ∀ (buf : Str) (headers : HeaderMap),
    buf.length ≤ n → (parse_headers buf headers).2 <:+ buf := by
  induction n with
  | zero =>
      intro buf headers hn
      have : buf = [] := List.length_eq_zero.mp (by omega)
      subst this
      rw [parse_headers_unfold]
      exact List.suffix_refl _
  | succ n ih =>
      intro buf headers hn
      rw [parse_headers_unfold]
      rcases hg : getline buf with _ | ⟨line, rest⟩
      · exact List.suffix_refl _
      · have hl := getline_rest_length buf line rest hg
        have hs := getline_rest_suffix buf line rest hg
        by_cases hline : line = "\r".toList
        · simp only [hline, if_true]
          exact hs
        · simp only [hline, if_false]
          exact (ih rest _ (by omega)).trans hs

/-! ## Lemmas: the regular expression -/

theorem dot_of_not_terminator (c : Char) (h1 : c ≠ '\r') (h2 : c ≠ '\n') : dot c = true := by
  simp [dot, h1, h2]

theorem dot_of_mem (v : Str) (h1 : '\r' ∉ v) (h2 : '\n' ∉ v) : ∀ c ∈ v, dot c = true := by
  intro c hc
  apply dot_of_not_terminator
  · intro e
    exact h1 (e ▸ hc)
  · intro e
    exact h2 (e ▸ hc)

theorem takeWhile_dot_value (v tail : Str) (hv : ∀ c ∈ v, dot c = true)
    (ht : ∀ c ∈ tail.head?, dot c = false) :
    (v ++ tail).takeWhile dot = v := by
  induction v with
  | nil =>
      cases tail with
      | nil => rfl
      | cons t ts =>
          have := ht t (by simp)
          simp [List.takeWhile_cons, this]
  | cons c cs ih =>
      have hc := hv c (by simp)
      simp only [List.cons_append, List.takeWhile_cons, hc, if_true]
      rw [ih (fun d hd => hv d (by simp [hd]))]

theorem regex_match_here_cons (c : Char) (cs : Str) :
    regex_match_here (c :: cs) =
      if dot c then
        match regex_match_here cs with
        | some (g1, g2) => some (c :: g1, g2)
        | none =>
            if c = ':' then
              match cs with
              | ' ' :: v => some ([], v.takeWhile dot)
              | _ => none
            else none
      else none := by
  cases cs <;> rfl

/-- Behind a text that has no `": "` and ends at a line terminator (or at the
end of the line) the pattern finds nothing. -/
theorem regex_match_here_none (v tail : Str) (hv : ¬ (": ".toList <:+: v))
    (ht : ∀ c ∈ tail.head?, dot c = false) :
    regex_match_here (v ++ tail) = none := by
  induction v with
  | nil =>
      cases tail with
      | nil => rfl
      | cons t ts =>
          have := ht t (by simp)
          rw [List.nil_append, regex_match_here_cons]
          simp [this]
  | cons c cs ih =>
      have hcs : ¬ (": ".toList <:+: cs) := fun h => hv (List.infix_cons h)
      have hrec := ih hcs
      rw [List.cons_append, regex_match_here_cons, hrec]
      by_cases hcolon : c = ':'
      · subst hcolon
        have hnext : ∀ v, cs ++ tail ≠ ' ' :: v := by
          intro v heq
          cases cs with
          | nil =>
              cases tail with
              | nil => simp at heq
              | cons t ts =>
                  have hd := ht t (by simp)
                  simp only [List.nil_append, List.cons.injEq] at heq
                  rw [heq.1] at hd
                  simp [dot] at hd
          | cons d ds =>
              simp only [List.cons_append, List.cons.injEq] at heq
              apply hv
              rw [heq.1]
              exact ⟨[], ds, by simp⟩
        have hd : dot ':' = true := by decide
        rcases hcase : cs ++ tail with _ | ⟨d, ds⟩
        · simp [hd]
        · have hne : d ≠ ' ' := by
            intro e
            subst e
            exact hnext ds hcase
          simp [hd, hne]
      · simp [hcolon]

/-- On `name ++ ": " ++ value` the anchored match yields the two parts, when
`value` has no further `": "`. -/
theorem regex_match_here_pair (name value tail : Str)
    (hn : ∀ c ∈ name, dot c = true)
    (hv : ∀ c ∈ value, dot c = true) (hvs : ¬ (": ".toList <:+: value))
    (ht : ∀ c ∈ tail.head?, dot c = false) :
    regex_match_here (name ++ ':' :: ' ' :: (value ++ tail)) = some (name, value) := by
  induction name with
  | nil =>
      have hsp : ¬ (": ".toList <:+: ' ' :: value) := by
        intro h
        rcases List.infix_cons_iff.mp h with h1 | h1
        · obtain ⟨t, ht1⟩ := h1
          simp at ht1
        · exact hvs h1
      have hnone := regex_match_here_none (' ' :: value) tail hsp ht
      rw [List.cons_append] at hnone
      have hd : dot ':' = true := by decide
      rw [List.nil_append, regex_match_here_cons, hnone]
      simp only [hd, if_true]
      rw [takeWhile_dot_value value tail hv ht]
  | cons c cs ih =>
      have hc := hn c (by simp)
      have hrec := ih (fun d hd => hn d (by simp [hd]))
      rw [List.cons_append, regex_match_here_cons, hrec]
      simp [hc]

theorem regex_search_pair (name value tail : Str)
    (hn : ∀ c ∈ name, dot c = true)
    (hv : ∀ c ∈ value, dot c = true) (hvs : ¬ (": ".toList <:+: value))
    (ht : ∀ c ∈ tail.head?, dot c = false) :
    regex_search (name ++ ':' :: ' ' :: (value ++ tail)) = some (name, value) := by
  have h := regex_match_here_pair name value tail hn hv hvs ht
  cases name with
  | nil =>
      rw [List.nil_append] at h ⊢
      rw [regex_search, h]
  | cons c cs =>
      rw [List.cons_append] at h ⊢
      rw [regex_search, h]

theorem headers_find_filter (m : HeaderMap) (name key : Str) (h : name ≠ key) :
    headers_find (m.filter (fun e => e.1 != name)) key = headers_find m key := by
  induction m with
  | nil => rfl
  | cons e m ih =>
      obtain ⟨k, v⟩ := e
      by_cases hk : k = name
      · subst hk
        simp [List.filter_cons, headers_find, h, ih]
      · have hb : ((k, v).1 != name) = true := by simpa using hk
        rw [List.filter_cons, if_pos hb]
        by_cases hkk : k = key
        · simp [headers_find, hkk]
        · simp [headers_find, hkk, ih]

theorem headers_find_assign (m : HeaderMap) (name value key : Str) :
    headers_find (headers_assign m name value) key =
      if name = key then some value else headers_find m key := by
  by_cases h : name = key
  · simp [headers_assign, headers_find, h]
  · simp only [headers_assign, headers_find, h, if_false]
    exact headers_find_filter m name key h

theorem headers_find_none_iff (m : HeaderMap) (key : Str) :
    headers_find m key = none ↔ ∀ e ∈ m, e.1 ≠ key := by
  induction m with
  | nil => simp [headers_find]
  | cons e m ih =>
      obtain ⟨k, v⟩ := e
      by_cases hk : k = key
      · simp [headers_find, hk]
      · simp [headers_find, hk, ih]

theorem store_header_pair (name value tail : Str) (headers : HeaderMap)
    (hn1 : '\r' ∉ name) (hn2 : '\n' ∉ name)
    (hv : ¬ (": ".toList <:+: value)) (hv1 : '\r' ∉ value) (hv2 : '\n' ∉ value)
    (ht : tail = [] ∨ tail = "\r".toList) :
    store_header (name ++ ": ".toList ++ value ++ tail) headers
      = headers_assign headers name value := by
  have htail : ∀ c ∈ tail.head?, dot c = false := by
    rcases ht with ht | ht <;> subst ht <;> simp [dot]
  have h := regex_search_pair name value tail (dot_of_mem name hn1 hn2)
    (dot_of_mem value hv1 hv2) hv htail
  have e : name ++ ": ".toList ++ value ++ tail = name ++ ':' :: ' ' :: (value ++ tail) := by
    simp
  rw [store_header, e, h]

theorem parse_headers_block_aux (rest : Str) : ∀ (hs : List (Str × Str)) (h0 : HeaderMap),
    (∀ e ∈ hs, well_formed_header e) →
    (parse_headers (header_block hs ++ rest) h0).2 = rest ∧
    ∀ name, headers_find (parse_headers (header_block hs ++ rest) h0).1 name =
      match last_value hs name with
      | some v => some v
      | none => headers_find h0 name := by
  intro hs
  induction hs with
  | nil =>
      intro h0 _
      have hg : getline (header_block [] ++ rest) = some ("\r".toList, rest) := by
        have := getline_line "\r".toList rest (by decide)
        simpa [header_block] using this
      rw [parse_headers_unfold, hg]
      simp [last_value]
  | cons e hs ih =>
      intro h0 hwf
      obtain ⟨⟨_, hn1, hn2⟩, hv, hv1, hv2⟩ := hwf e (by simp)
      have hwf2 : ∀ e ∈ hs, well_formed_header e := fun x hx => hwf x (by simp [hx])
      have hl : '\n' ∉ e.1 ++ ": ".toList ++ e.2 ++ "\r".toList := by
        simp only [List.mem_append, not_or]
        exact ⟨⟨⟨hn2, by decide⟩, hv2⟩, by decide⟩
      have hg : getline (header_block (e :: hs) ++ rest)
          = some (e.1 ++ ": ".toList ++ e.2 ++ "\r".toList, header_block hs ++ rest) := by
        have := getline_line _ (header_block hs ++ rest) hl
        rw [← this]
        simp [header_block, header_line]
      have hne : e.1 ++ ": ".toList ++ e.2 ++ "\r".toList ≠ "\r".toList := by
        intro h
        have := congrArg List.length h
        simp at this
        omega
      rw [parse_headers_unfold, hg]
      simp only [hne, if_false]
      rw [store_header_pair e.1 e.2 "\r".toList h0 hn1 hn2 hv hv1 hv2 (Or.inr rfl)]
      obtain ⟨i1, i2⟩ := ih (headers_assign h0 e.1 e.2) hwf2
      refine ⟨i1, fun name => ?_⟩
      rw [i2 name, last_value]
      cases last_value hs name with
      | some v => rfl
      | none =>
          simp only [headers_find_assign]
          by_cases hk : e.1 = name <;> simp [hk]

theorem SHA1_length (msg : List Nat) : (SHA1 msg).length = 20 := by
  simp [SHA1, be32]

theorem b64Char_ne_newline (n : Nat) : b64Char n ≠ '\n' := by
  have h : ∀ i, i < 64 → b64Alphabet.getD i 'A' ≠ '\n' := by decide
  exact h (n % 64) (Nat.mod_lt n (by decide))

theorem base64_no_newline : ∀ (data : List Nat), '\n' ∉ base64 data
  | a :: b :: c :: rest => by
      have ih := base64_no_newline rest
      simp only [base64, List.mem_cons, not_or]
      exact ⟨fun e => b64Char_ne_newline _ e.symm, fun e => b64Char_ne_newline _ e.symm,
        fun e => b64Char_ne_newline _ e.symm, fun e => b64Char_ne_newline _ e.symm, ih⟩
  | [a, b] => by
      simp only [base64, List.mem_cons, not_or]
      exact ⟨fun e => b64Char_ne_newline _ e.symm, fun e => b64Char_ne_newline _ e.symm,
        fun e => b64Char_ne_newline _ e.symm, by decide, by simp⟩
  | [a] => by
      simp only [base64, List.mem_cons, not_or]
      exact ⟨fun e => b64Char_ne_newline _ e.symm, fun e => b64Char_ne_newline _ e.symm,
        by decide, by decide, by simp⟩
  | [] => by simp [base64]

theorem base64_length : ∀ (data : List Nat), (base64 data).length = 4 * ((data.length + 2) / 3)
  | a :: b :: c :: rest => by
      have ih := base64_length rest
      simp only [base64, List.length_cons, ih]
      omega
  | [a, b] => by simp [base64]
  | [a] => by simp [base64]
  | [] => by simp [base64]

/-! ## Lemmas: `process_handshake` -/

theorem process_handshake_missing (s : session)
    (h : headers_find (parse_headers s.in_buffer_ s.headers_).1 "Sec-WebSocket-Key".toList
      = none) :
    process_handshake s = (Outcome.thrown 400,
      { s with
        headers_ := (parse_headers s.in_buffer_ s.headers_).1
        in_buffer_ := (parse_headers s.in_buffer_ s.headers_).2 }) := by
  simp only [process_handshake, h]

theorem process_handshake_in_buffer (s : session) :
    (process_handshake s).2.in_buffer_ = (parse_headers s.in_buffer_ s.headers_).2 := by
  simp only [process_handshake]
  split <;> rfl

/-! ## Lemmas: the delimiter -/

theorem after_delimiter_suffix : ∀ (buf post : Str),
    after_delimiter buf = some post → post <:+ buf
  | [], post => by simp [after_delimiter]
  | c :: cs, post => by
      intro h
      rw [after_delimiter] at h
      split at h
      · simp only [Option.some.injEq] at h
        rw [← h]
        exact List.drop_suffix 4 (c :: cs)
      · exact (after_delimiter_suffix cs post h).trans (List.suffix_cons c cs)

/-- One `getline` either leaves the first delimiter whole in the buffer, or has
just extracted the line that ends in the delimiter's first LF. -/
theorem getline_after_delimiter : ∀ (buf post line rest : Str),
    after_delimiter buf = some post → getline buf = some (line, rest) →
    after_delimiter rest = some post ∨ rest = "\r\n".toList ++ post
  | [], post, line, rest => by simp [after_delimiter]
  | c :: cs, post, line, rest => by
      intro hd hg
      rw [after_delimiter] at hd
      simp only [getline, Option.some.injEq, Prod.mk.injEq] at hg
      split at hd
      · rename_i hp
        obtain ⟨t, ht⟩ := List.isPrefixOf_iff_prefix.mp hp
        simp only [Option.some.injEq] at hd
        right
        have e1 : "\r\n\r\n".toList = ['\r', '\n', '\r', '\n'] := rfl
        have e2 : "\r\n".toList = ['\r', '\n'] := rfl
        rw [← hg.2, ← hd, ← ht, e1, e2]
        simp [List.dropWhile_cons]
      · by_cases hc : c = '\n'
        · left
          subst hc
          rw [← hg.2]
          simpa using hd
        · have hcs : cs ≠ [] := by
            intro e
            subst e
            simp [after_delimiter] at hd
          obtain ⟨l2, hl2⟩ := getline_cons_of_ne c cs hc hcs
          rw [hg.2] at hl2
          exact getline_after_delimiter cs post l2 rest hd hl2

theorem parse_headers_not_past (n : Nat) : ∀ (buf post : Str) (headers : HeaderMap),
    buf.length ≤ n → after_delimiter buf = some post →
    post <:+ (parse_headers buf headers).2 := by
  induction n with
  | zero =>
      intro buf post headers hn hd
      have : buf = [] := List.length_eq_zero.mp (by omega)
      subst this
      simp [after_delimiter] at hd
  | succ n ih =>
      intro buf post headers hn hd
      rw [parse_headers_unfold]
      rcases hg : getline buf with _ | ⟨line, rest⟩
      · exact after_delimiter_suffix buf post hd
      · have hl := getline_rest_length buf line rest hg
        have hcases := getline_after_delimiter buf post line rest hd hg
        by_cases hline : line = "\r".toList
        · simp only [hline, if_true]
          rcases hcases with h1 | h1
          · exact after_delimiter_suffix rest post h1
          · rw [h1]
            exact List.suffix_append _ _
        · simp only [hline, if_false]
          rcases hcases with h1 | h1
          · exact ih rest post _ (by omega) h1
          · rw [h1, parse_headers_blank]

theorem parse_headers_crlf_lines (post : Str) : ∀ (ls : List Str) (headers : HeaderMap),
    (∀ l ∈ ls, l ≠ [] ∧ '\n' ∉ l) →
    (parse_headers (crlf_lines ls ++ "\r\n".toList ++ post) headers).2 = post := by
  intro ls
  induction ls with
  | nil =>
      intro headers _
      have := parse_headers_blank post headers
      simp only [crlf_lines, List.map_nil, List.flatten_nil, List.nil_append] at this ⊢
      rw [this]
  | cons l ls ih =>
      intro headers hwf
      obtain ⟨hne, hlf⟩ := hwf l (by simp)
      have hl : '\n' ∉ l ++ "\r".toList := by
        simp only [List.mem_append, not_or]
        exact ⟨hlf, by decide⟩
      have hg : getline (crlf_lines (l :: ls) ++ "\r\n".toList ++ post)
          = some (l ++ "\r".toList, crlf_lines ls ++ "\r\n".toList ++ post) := by
        have := getline_line _ (crlf_lines ls ++ "\r\n".toList ++ post) hl
        rw [← this]
        simp [crlf_lines]
      have hline : l ++ "\r".toList ≠ "\r".toList := by
        intro h
        have := congrArg List.length h
        simp at this
        exact hne this
      rw [parse_headers_unfold, hg]
      simp only [hline, if_false]
      exact ih _ (fun x hx => hwf x (by simp [hx]))

theorem after_delimiter_line (X : Str) : ∀ (l : Str), '\n' ∉ l →
    after_delimiter (l ++ '\r' :: '\n' :: X) =
      if "\r\n".toList.isPrefixOf X then some (X.drop 2) else after_delimiter X := by
  have e1 : "\r\n\r\n".toList = ['\r', '\n', '\r', '\n'] := rfl
  have e2 : "\r\n".toList = ['\r', '\n'] := rfl
  intro l
  induction l with
  | nil =>
      intro _
      rw [List.nil_append, after_delimiter, e1, e2]
      by_cases hp : ['\r', '\n'].isPrefixOf X = true
      · have hp2 : ['\r', '\n', '\r', '\n'].isPrefixOf ('\r' :: '\n' :: X) = true := by
          simpa [List.isPrefixOf] using hp
        rw [if_pos hp, if_pos hp2]
        rfl
      · have hp2 : ¬ ['\r', '\n', '\r', '\n'].isPrefixOf ('\r' :: '\n' :: X) = true := by
          simpa [List.isPrefixOf] using hp
        rw [if_neg hp, if_neg hp2, after_delimiter, e1]
        have hp3 : ¬ ['\r', '\n', '\r', '\n'].isPrefixOf ('\n' :: X) = true := by
          simp [List.isPrefixOf]
        rw [if_neg hp3]
  | cons c cs ih =>
      intro h
      simp only [List.mem_cons, not_or] at h
      have hnot : ¬ ['\r', '\n', '\r', '\n'].isPrefixOf (c :: (cs ++ '\r' :: '\n' :: X)) = true := by
        cases cs with
        | nil => simp [List.isPrefixOf]
        | cons d ds =>
            have hd : ¬ '\n' = d := by
              intro e
              exact h.2 (by rw [e]; exact List.mem_cons_self _ _)
            simp [List.isPrefixOf, hd]
      rw [List.cons_append, after_delimiter, e1, if_neg hnot]
      exact ih h.2

theorem crlf_lines_not_blank (l : Str) (ls : List Str) (post : Str)
    (hne : l ≠ []) (hlf : '\n' ∉ l) :
    ¬ "\r\n".toList.isPrefixOf (crlf_lines (l :: ls) ++ "\r\n".toList ++ post) = true := by
  have e2 : "\r\n".toList = ['\r', '\n'] := rfl
  rw [e2]
  cases l with
  | nil => exact absurd rfl hne
  | cons c cs =>
      simp only [List.mem_cons, not_or] at hlf
      cases cs with
      | nil => simp [crlf_lines, List.isPrefixOf]
      | cons d ds =>
          have hd : ¬ '\n' = d := by
            intro e
            exact hlf.2 (by rw [e]; exact List.mem_cons_self _ _)
          simp [crlf_lines, List.isPrefixOf, hd]

theorem after_delimiter_crlf_lines (post : Str) : ∀ (ls : List Str), ls ≠ [] →
    (∀ l ∈ ls, l ≠ [] ∧ '\n' ∉ l) →
    after_delimiter (crlf_lines ls ++ "\r\n".toList ++ post) = some post := by
  intro ls
  induction ls with
  | nil => intro h; exact absurd rfl h
  | cons l ls ih =>
      intro _ hwf
      obtain ⟨_, hlf⟩ := hwf l (by simp)
      have e : crlf_lines (l :: ls) ++ "\r\n".toList ++ post
          = l ++ '\r' :: '\n' :: (crlf_lines ls ++ "\r\n".toList ++ post) := by
        simp [crlf_lines]
      rw [e, after_delimiter_line _ l hlf]
      cases ls with
      | nil =>
          have hp : "\r\n".toList.isPrefixOf (crlf_lines [] ++ "\r\n".toList ++ post) = true := by
            have e2 : "\r\n".toList = ['\r', '\n'] := rfl
            rw [e2]
            simp [crlf_lines, List.isPrefixOf]
          rw [if_pos hp]
          simp [crlf_lines]
      | cons l2 ls2 =>
          obtain ⟨hne2, hlf2⟩ := hwf l2 (by simp)
          rw [if_neg (crlf_lines_not_blank l2 ls2 post hne2 hlf2)]
          exact ih (by simp) (fun x hx => hwf x (by simp [hx]))

/-! ## Lemmas: the trace of a run -/

theorem process_handshake_no_close (s : session) (h : Event.on_close ∉ s.trace) :
    Event.on_close ∉ (process_handshake s).2.trace := by
  simp only [process_handshake]
  split
  · exact h
  · simp [write_handshake, start_op, h]

theorem handler_no_close (op : Op) (ec : Bool) (data : Str) (n : Nat) (s : session)
    (h : Event.on_close ∉ s.trace) :
    Event.on_close ∉ (handler op ec data n s).2.trace := by
  cases op with
  | read_until =>
      cases ec with
      | false =>
          simp only [handler, read_handshake_done]
          exact process_handshake_no_close _ h
      | true => simpa [handler, read_handshake_done] using h
  | write_out error =>
      cases ec <;> cases error <;>
        simp [handler, write_handshake_done, read, start_op, call_hook, h]
  | read_two => simpa [handler, read_done] using h
  | write_none buffer => cases ec <;> simp [handler, write_done, start_op, h]
  | write_payload buffer =>
      cases ec <;> simp [handler, write_payload_done, read, start_op, h]

theorem step_no_close (s : session) (i : Input) (h : Event.on_close ∉ s.trace) :
    Event.on_close ∉ (step s i).2.trace := by
  cases i with
  | complete op ec data n =>
      simp only [step]
      split
      · exact handler_no_close op ec data n _ h
      · exact h
  | call_write code buffer => simp [step, write, start_op, h]
  | call_close => simpa [step, close] using h

theorem run_no_close : ∀ (inputs : List Input) (s : session),
    Event.on_close ∉ s.trace → Event.on_close ∉ (run s inputs).2.trace
  | [], s, h => by simpa [run] using h
  | i :: rest, s, h => by
      have hs := step_no_close s i h
      rw [run]
      rcases hstep : step s i with ⟨o, s1⟩
      rw [hstep] at hs
      cases o with
      | returned => exact run_no_close rest s1 hs
      | thrown v => exact hs

/-! ## The accept key -/

set_option maxRecDepth 100000 in
/-- C1. For every nonce `k`, `generate_accept` yields the base64 encoding of
the SHA-1 digest of `k` followed by the GUID `258EAFA5-E914-47DA-95CA-C5AB0DC85B11`:
the digest has 20 bytes, the token has 28 characters and no line break; and the
nonce `dGhlIHNhbXBsZSBub25jZQ==` yields `s3pPLMBiTxaQ9kYGzzhZRbK+xOo=`. -/
theorem generate_accept_spec (k : Str) :
    generate_accept k
        = base64 (SHA1 ((k ++ "258EAFA5-E914-47DA-95CA-C5AB0DC85B11".toList).map byteOf))
      ∧ (SHA1 ((k ++ "258EAFA5-E914-47DA-95CA-C5AB0DC85B11".toList).map byteOf)).length = 20
      ∧ (generate_accept k).length = 28
      ∧ '\n' ∉ generate_accept k
      ∧ generate_accept "dGhlIHNhbXBsZSBub25jZQ==".toList
          = "s3pPLMBiTxaQ9kYGzzhZRbK+xOo=".toList := by
  have h0 : generate_accept k
      = base64 (SHA1 ((k ++ "258EAFA5-E914-47DA-95CA-C5AB0DC85B11".toList).map byteOf)) := by
    simp [generate_accept, BIO_base64, GUID]
  refine ⟨h0, SHA1_length _, ?_, ?_, by decide⟩
  · rw [h0, base64_length, SHA1_length]
  · rw [h0]
    exact base64_no_newline _

/-! ## The handshake response -/

set_option maxRecDepth 100000 in
/-- C3. A request without `Sec-WebSocket-Key`: the completion handler of
`read_handshake` is left by the exception `400`; no response has been put into
the outbound buffer, nothing has been written to the socket, and no operation
is outstanding. -/
theorem missing_key_throws :
    (run (start session_new) [Input.complete Op.read_until false
        "GET /chat HTTP/1.1\r\nHost: server.example.com\r\nUpgrade: websocket\r\n\r\n".toList 0]).1
      = Outcome.thrown 400 ∧
    (run (start session_new) [Input.complete Op.read_until false
        "GET /chat HTTP/1.1\r\nHost: server.example.com\r\nUpgrade: websocket\r\n\r\n".toList 0]).2.out_buffer_
      = [] ∧
    (run (start session_new) [Input.complete Op.read_until false
        "GET /chat HTTP/1.1\r\nHost: server.example.com\r\nUpgrade: websocket\r\n\r\n".toList 0]).2.wire
      = [] ∧
    (run (start session_new) [Input.complete Op.read_until false
        "GET /chat HTTP/1.1\r\nHost: server.example.com\r\nUpgrade: websocket\r\n\r\n".toList 0]).2.pending
      = [] := by
  decide

/-! ## The header map after the parse loop -/

/-- C4. After the parse loop has run over a block of well-formed header lines
`name: value` CRLF and the blank line, the header map (empty before) maps each
name to the value of its last occurrence in the block, without the CR, and
holds no name that does not occur. -/
theorem parse_headers_last_wins (hs : List (Str × Str)) (rest : Str)
    (hwf : ∀ e ∈ hs, well_formed_header e) (name : Str) :
    headers_find (parse_headers (header_block hs ++ rest) []).1 name = last_value hs name := by
  rw [(parse_headers_block_aux rest hs [] hwf).2 name]
  cases last_value hs name <;> rfl

/-- C4, at a block that repeats a name. -/
theorem parse_headers_last_wins_witness :
    (∀ e ∈ [("Host".toList, "a".toList), ("Sec-WebSocket-Key".toList, "k1".toList),
        ("Host".toList, "b:80".toList)], well_formed_header e) ∧
    headers_find (parse_headers (header_block [("Host".toList, "a".toList),
        ("Sec-WebSocket-Key".toList, "k1".toList), ("Host".toList, "b:80".toList)]
        ++ "rest".toList) []).1 "Host".toList
      = last_value [("Host".toList, "a".toList), ("Sec-WebSocket-Key".toList, "k1".toList),
        ("Host".toList, "b:80".toList)] "Host".toList ∧
    last_value [("Host".toList, "a".toList), ("Sec-WebSocket-Key".toList, "k1".toList),
        ("Host".toList, "b:80".toList)] "Host".toList = some "b:80".toList :=
  have hwf : ∀ e ∈ [("Host".toList, "a".toList), ("Sec-WebSocket-Key".toList, "k1".toList),
      ("Host".toList, "b:80".toList)], well_formed_header e := by
    simp only [well_formed_header]
    decide
  ⟨hwf, parse_headers_last_wins _ "rest".toList hwf "Host".toList, by decide⟩

/-! ## What the handshake consumes -/

set_option maxRecDepth 100000 in
/-- C5, as stated, fails where a line of the block ends in a bare LF and is
followed by CRLF: the content below contains the delimiter only at its end,
`process_handshake` completes on it, and `Host: a` with the delimiter is still
in the inbound buffer. -/
theorem process_handshake_leaves_block :
    after_delimiter "Sec-WebSocket-Key: dGhlIHNhbXBsZSBub25jZQ==\n\r\nHost: a\r\n\r\n".toList
      = some [] ∧
    (process_handshake { session_new with
        in_buffer_ := "Sec-WebSocket-Key: dGhlIHNhbXBsZSBub25jZQ==\n\r\nHost: a\r\n\r\n".toList }).1
      = Outcome.returned ∧
    (process_handshake { session_new with
        in_buffer_ := "Sec-WebSocket-Key: dGhlIHNhbXBsZSBub25jZQ==\n\r\nHost: a\r\n\r\n".toList }).2.in_buffer_
      = "Host: a\r\n\r\n".toList := by
  decide

/-- C5, amended. What `process_handshake` leaves in the inbound buffer is the
end of what was there. For every content that contains the delimiter, whatever
follows its first occurrence is still in the buffer afterwards, whether
`process_handshake` completes or throws; and when the content is made of one
or more non-empty lines ended by CRLF, the blank line and a rest, the first
occurrence of the delimiter ends in front of that rest, and that rest is
exactly what is in the buffer afterwards. -/
theorem process_handshake_consumes (s : session) (post : Str) :
    (process_handshake s).2.in_buffer_ <:+ s.in_buffer_ ∧
      (after_delimiter s.in_buffer_ = some post →
        post <:+ (process_handshake s).2.in_buffer_) ∧
      ∀ ls : List Str, ls ≠ [] → (∀ l ∈ ls, l ≠ [] ∧ '\n' ∉ l) →
        s.in_buffer_ = crlf_lines ls ++ "\r\n".toList ++ post →
        after_delimiter s.in_buffer_ = some post ∧ (process_handshake s).2.in_buffer_ = post := by
  rw [process_handshake_in_buffer]
  refine ⟨parse_headers_suffix _ _ _ (le_refl _),
    fun hd => parse_headers_not_past _ _ _ _ (le_refl _) hd, ?_⟩
  intro ls hne hwf hb
  rw [hb]
  exact ⟨after_delimiter_crlf_lines post ls hne hwf, parse_headers_crlf_lines post ls _ hwf⟩

set_option maxRecDepth 100000 in
/-- C5, amended, at a request followed by the two bytes of an empty frame. -/
theorem process_handshake_consumes_witness :
    (∀ l ∈ ["GET /chat HTTP/1.1".toList, "Host: server.example.com".toList,
        "Sec-WebSocket-Key: dGhlIHNhbXBsZSBub25jZQ==".toList], l ≠ [] ∧ '\n' ∉ l) ∧
    "\x81\x00".toList <:+ (process_handshake { session_new with
        in_buffer_ := "GET /chat HTTP/1.1\r\nHost: server.example.com\r\nSec-WebSocket-Key: dGhlIHNhbXBsZSBub25jZQ==\r\n\r\n\x81\x00".toList }).2.in_buffer_ ∧
    after_delimiter "GET /chat HTTP/1.1\r\nHost: server.example.com\r\nSec-WebSocket-Key: dGhlIHNhbXBsZSBub25jZQ==\r\n\r\n\x81\x00".toList
      = some "\x81\x00".toList ∧
    (process_handshake { session_new with
        in_buffer_ := "GET /chat HTTP/1.1\r\nHost: server.example.com\r\nSec-WebSocket-Key: dGhlIHNhbXBsZSBub25jZQ==\r\n\r\n\x81\x00".toList }).2.in_buffer_
      = "\x81\x00".toList :=
  have hwf : ∀ l ∈ ["GET /chat HTTP/1.1".toList, "Host: server.example.com".toList,
      "Sec-WebSocket-Key: dGhlIHNhbXBsZSBub25jZQ==".toList], l ≠ [] ∧ '\n' ∉ l := by decide
  ⟨hwf,
    (process_handshake_consumes { session_new with
        in_buffer_ := "GET /chat HTTP/1.1\r\nHost: server.example.com\r\nSec-WebSocket-Key: dGhlIHNhbXBsZSBub25jZQ==\r\n\r\n\x81\x00".toList }
      "\x81\x00".toList).2.1 (by decide),
    (process_handshake_consumes { session_new with
        in_buffer_ := "GET /chat HTTP/1.1\r\nHost: server.example.com\r\nSec-WebSocket-Key: dGhlIHNhbXBsZSBub25jZQ==\r\n\r\n\x81\x00".toList }
      "\x81\x00".toList).2.2
    ["GET /chat HTTP/1.1".toList, "Host: server.example.com".toList,
      "Sec-WebSocket-Key: dGhlIHNhbXBsZSBub25jZQ==".toList] (by decide) hwf (by decide)⟩

/-! ## The send path -/

/-- C6. After `write(opcode, buffer)` and the successful completion of both of
its writes, the socket has received the payload and nothing else; no frame
header has been sent, so the bytes differ from the frame of the specification
for every opcode and payload. -/
theorem write_sends_payload_only (code : opcode) (buffer : Str) (n : Nat) (s : session) :
    (write_payload_done buffer false n (write_done buffer false (write code buffer s))).wire
        = s.wire ++ buffer ∧
      s.wire ++ buffer ≠ s.wire ++ frame_spec code buffer ∧
      (write_payload_done "hi".toList false 0
          (write_done "hi".toList false (write 1 "hi".toList session_new))).wire = "hi".toList ∧
      frame_spec 1 "hi".toList = [Char.ofNat 0x81, Char.ofNat 2, 'h', 'i'] := by
  refine ⟨by simp [write_payload_done, write_done, write, start_op, read], ?_, by decide, by decide⟩
  intro h
  have hlen := congrArg List.length h
  simp only [frame_spec, List.length_append, List.length_cons, List.length_map] at hlen
  omega

/-! ## The completion of the handshake -/

/-- C7. The completion of the handshake write of a successful handshake: when
the write has succeeded, `on_open` is called once and then the read is
started, and nothing else happens; when the write has failed, no hook is called
and no operation is started. -/
theorem write_handshake_done_events (n : Nat) (s : session) :
    (write_handshake_done false false n s).trace
        = s.trace ++ [Event.on_open, Event.started Op.read_two] ∧
      (write_handshake_done false false n s).pending = s.pending ++ [Op.read_two] ∧
      (write_handshake_done false true n s).trace = s.trace ∧
      (write_handshake_done false true n s).pending = s.pending := by
  simp [write_handshake_done, read, start_op, call_hook]

/-! ## The closing hook -/

set_option maxRecDepth 100000 in
/-- C8. No run of a session calls `on_close`: whatever completes, fails or is
called after `start`, the hook is not in the trace. In particular the run in
which the handshake read fails ends with no operation outstanding and without
the call; so does the run in which `close` is called twice; and so does the
run of a session that has been opened and whose frame read then fails. -/
theorem on_close_never_called (inputs : List Input) :
    (run (start session_new) inputs).2.trace.count Event.on_close = 0 ∧
      (run (start session_new) [Input.complete Op.read_until true [] 0]).2.pending = [] ∧
      (run (start session_new) [Input.complete Op.read_until true [] 0]).2.trace
        = [Event.started Op.read_until] ∧
      (run (start session_new) [Input.call_close, Input.call_close,
          Input.complete Op.read_until true [] 0]).2.trace
        = [Event.started Op.read_until] ∧
      (run (start session_new) [Input.complete Op.read_until false
          "GET /chat HTTP/1.1\r\nSec-WebSocket-Key: dGhlIHNhbXBsZSBub25jZQ==\r\n\r\n".toList 0,
          Input.complete (Op.write_out false) false [] 0,
          Input.complete Op.read_two true [] 0]).2.pending = [] ∧
      (run (start session_new) [Input.complete Op.read_until false
          "GET /chat HTTP/1.1\r\nSec-WebSocket-Key: dGhlIHNhbXBsZSBub25jZQ==\r\n\r\n".toList 0,
          Input.complete (Op.write_out false) false [] 0,
          Input.complete Op.read_two true [] 0]).2.trace
        = [Event.started Op.read_until, Event.started (Op.write_out false), Event.on_open,
            Event.started Op.read_two] := by
  refine ⟨?_, by decide, by decide, by decide, by decide, by decide⟩
  rw [List.count_eq_zero]
  exact run_no_close inputs _ (by decide)

/-! ## One header line -/

/-- C9. On a header line whose value contains `": "` the parse loop does not
split at the first colon: the line `X: a: b` has the text `X` before its first
colon and `a: b` after it, and the loop stores `b` under the name `X: a` and
nothing under `X`. -/
theorem store_header_value_with_separator :
    ':' ∈ "X: a: b\r".toList ∧
    before_first_colon "X: a: b\r".toList = "X".toList ∧
    trim (after_first_colon "X: a: b\r".toList) = "a: b".toList ∧
    store_header "X: a: b\r".toList [] = [("X: a".toList, "b".toList)] ∧
    headers_find (store_header "X: a: b\r".toList []) "X".toList = none ∧
    headers_find (store_header "X: a: b\r".toList []) (before_first_colon "X: a: b\r".toList)
      ≠ some (trim (after_first_colon "X: a: b\r".toList)) := by
  decide

/-! ## The key lookup -/

/-- C10. The lookup is exact: when no parsed header name equals
`Sec-WebSocket-Key` byte for byte, `process_handshake` takes the missing-key
branch (it throws `400`), leaves the outbound buffer as it was and starts no
write. -/
theorem process_handshake_exact_lookup (s : session)
    (h : ∀ e ∈ (parse_headers s.in_buffer_ s.headers_).1, e.1 ≠ "Sec-WebSocket-Key".toList) :
    (process_handshake s).1 = Outcome.thrown 400 ∧
      (process_handshake s).2.out_buffer_ = s.out_buffer_ ∧
      (process_handshake s).2.pending = s.pending ∧
      (process_handshake s).2.wire = s.wire := by
  rw [process_handshake_missing s ((headers_find_none_iff _ _).mpr h)]
  exact ⟨rfl, rfl, rfl, rfl⟩

set_option maxRecDepth 100000 in
/-- C10, at a request whose only key header is spelled in lower case. -/
theorem process_handshake_exact_lookup_witness :
    (∀ e ∈ (parse_headers "GET /chat HTTP/1.1\r\nsec-websocket-key: dGhlIHNhbXBsZSBub25jZQ==\r\n\r\n".toList []).1,
        e.1 ≠ "Sec-WebSocket-Key".toList) ∧
    (process_handshake { session_new with
        in_buffer_ := "GET /chat HTTP/1.1\r\nsec-websocket-key: dGhlIHNhbXBsZSBub25jZQ==\r\n\r\n".toList }).1
      = Outcome.thrown 400 ∧
    (process_handshake { session_new with
        in_buffer_ := "GET /chat HTTP/1.1\r\nsec-websocket-key: dGhlIHNhbXBsZSBub25jZQ==\r\n\r\n".toList }).2.out_buffer_
      = [] :=
  ⟨by decide,
    (process_handshake_exact_lookup { session_new with
        in_buffer_ := "GET /chat HTTP/1.1\r\nsec-websocket-key: dGhlIHNhbXBsZSBub25jZQ==\r\n\r\n".toList }
      (by decide)).1,
    (process_handshake_exact_lookup { session_new with
        in_buffer_ := "GET /chat HTTP/1.1\r\nsec-websocket-key: dGhlIHNhbXBsZSBub25jZQ==\r\n\r\n".toList }
      (by decide)).2.1⟩

end ws
